import Mathlib

/-!
Verification of the debug-console state machine of `src/vm/src/console.rs`.

The Rust `Console` struct stores its input line as a `String` addressed by a
byte-valued `cursor_position`.  We embed strings as lists of bytes
(`List Nat`, each entry the value of one UTF-8 code unit), so that the
byte-level cursor arithmetic of the source (`is_char_boundary`,
`String::insert`, `String::remove`) is modelled faithfully.  Rendering-only
fields (font, textures, ttf context) are omitted; the renderer itself is
modelled by the trace of lines it lays out and rasterizes.

Rust operations that can panic (`unwrap` on `None`, out-of-bounds indexing,
`String::insert`/`remove` preconditions) are modelled as `Option`-returning
functions, `none` meaning the panic.  `std::process::exit(0)` inside
`process_command` is modelled by an `exited` flag: once it is set, the
remaining statements of the caller are skipped, mirroring the fact that
`exit` does not return.
-/

/-- Bytes 0x80..0xBF are UTF-8 continuation bytes. -/
def is_cont_byte (b : Nat) : Bool :=
  0x80 ≤ b && b < 0xC0

/-- Model of Rust `str::is_char_boundary`: true at 0 and at the length of the
string, and inside the string exactly at non-continuation bytes. -/
def is_char_boundary (s : List Nat) (i : Nat) : Bool :=
  if i = 0 then true
  else
    match s.get? i with
    | some b => !is_cont_byte b
    | none => i == s.length

/-- The first code unit of the string, if any, is not a continuation byte.
Every Rust `String` satisfies this (it is valid UTF-8). -/
def head_non_cont (s : List Nat) : Bool :=
  match s.get? 0 with
  | some b => !is_cont_byte b
  | none => true

/-- UTF-8 code units of a pure-ASCII Lean string literal. -/
def ascii (s : String) : List Nat :=
  s.data.map Char.toNat

/-- The loop `while !is_char_boundary(pos) { pos -= 1 }` executed after a
decrement: largest boundary position at most `k`. -/
def seek_boundary_down (s : List Nat) : Nat → Nat
  | 0 => 0
  | k + 1 => if is_char_boundary s (k + 1) then k + 1 else seek_boundary_down s k

/-- The loop `while !is_char_boundary(pos) { pos += 1 }` executed after an
increment.  In the source it is only reached with `pos ≤ s.length`, where the
extra `k < s.length` guard (needed for termination on arbitrary inputs) never
fires, because position `s.length` is always a boundary. -/
def seek_boundary_up (s : List Nat) (k : Nat) : Nat :=
  if is_char_boundary s k then k
  else if k < s.length then seek_boundary_up s (k + 1) else k
termination_by s.length - k
decreasing_by omega

/-- Model of `input.chars().next().unwrap()` followed by re-encoding: the code
units of the first character of `input`; `none` models the `unwrap` panic on
an empty input string.  For valid UTF-8 the first character's units are the
first byte together with the following continuation bytes. -/
def utf8_first_char (input : List Nat) : Option (List Nat) :=
  match input with
  | [] => none
  | b :: rest => some (b :: rest.takeWhile is_cont_byte)

/-- Model of `String::insert(idx, ch)`: `none` models the panic when `idx` is
out of bounds or not a character boundary. -/
def string_insert (s : List Nat) (idx : Nat) (ch : List Nat) : Option (List Nat) :=
  if is_char_boundary s idx then some (s.take idx ++ ch ++ s.drop idx)
  else none

/-- Model of `String::remove(idx)` (dropping the returned character): `none`
models the panic when `idx` is past the end or not a character boundary.  The
removed character's width is one byte plus its continuation bytes. -/
def string_remove (s : List Nat) (idx : Nat) : Option (List Nat) :=
  if idx < s.length ∧ is_char_boundary s idx then
    some (s.take idx ++ s.drop (idx + 1 + ((s.drop (idx + 1)).takeWhile is_cont_byte).length))
  else none

/-- Helper of `print_lines`: drop one trailing carriage return, as Rust
`str::lines` does for `\r\n` endings. -/
def strip_cr (l : List Nat) : List Nat :=
  if l.getLast? = some 13 then l.dropLast else l

/-- Model of Rust `str::lines`: split on byte 10, drop a final empty segment
produced by a trailing newline, and strip one `\r` from each terminated line. -/
def split_lines (text : List Nat) : List (List Nat) :=
  if text = [] then []
  else
    let parts := text.splitOn 10
    if parts.getLast? = some [] then parts.dropLast.map strip_cr
    else parts.dropLast.map strip_cr ++ [parts.getLast?.getD []]

/-- `FONT_SIZE` from `console.rs`. -/
def FONT_SIZE : Nat := 18

/-- The state fields of `Console` (rendering resources omitted).  `size` is
`(width / 2, height)` as set up in `Console::new`.  `exited` records that
`std::process::exit(0)` was reached. -/
structure Console where
  visible : Bool
  visible_start_time : Nat
  input_buffer : List Nat
  last_command : List Nat
  command_history : List (List Nat)
  history_position : Nat
  cursor_position : Nat
  buffer : List (List Nat)
  backbuffer_y : Int
  size : Nat × Nat
  line_ending : Bool
  ctrl : Bool
  shift : Bool
  exited : Bool
deriving DecidableEq, Repr

/-- The state set up by `Console::new` for a window of the given size. -/
def Console.new (width height : Nat) : Console :=
  { visible := false
    visible_start_time := 0
    input_buffer := []
    last_command := []
    command_history := []
    history_position := 0
    cursor_position := 0
    buffer := []
    backbuffer_y := 0
    size := (width / 2, height)
    line_ending := true
    ctrl := false
    shift := false
    exited := false }

/-- A freshly constructed console (the reference 1280x400 window of `main`). -/
def initConsole : Console :=
  Console.new 1280 400

/-- `Console::process_command`: on a non-empty input buffer, push it onto the
history and store it as the pending command; if the text is exactly `exit`,
call `std::process::exit(0)` (modelled by the `exited` flag). -/
def process_command (c : Console) : Console :=
  if c.input_buffer = [] then c
  else if c.input_buffer = ascii "exit" then
    { c with command_history := c.command_history ++ [c.input_buffer]
             last_command := c.input_buffer
             exited := true }
  else
    { c with command_history := c.command_history ++ [c.input_buffer]
             last_command := c.input_buffer }

/-- `Console::commit`: push the echoed `hakka> ...` line, run
`process_command`, then (unless the process exited inside it) reset the input
buffer, the cursor, and the history navigation index. -/
def commit (c : Console) : Console :=
  let c1 := process_command { c with buffer := c.buffer ++ [ascii "hakka> " ++ c.input_buffer] }
  if c1.exited then c1
  else
    { c1 with input_buffer := []
              cursor_position := 0
              history_position := c1.command_history.length }

/-- `Console::clear`: empties the scroll-back buffer.  Note that it does not
reset `line_ending`. -/
def clear (c : Console) : Console :=
  { c with buffer := [] }

/-- `Console::history_navigate_back`.  `none` models the panic of the index
expression `command_history[history_position - 1]` when it is out of bounds. -/
def history_navigate_back (c : Console) : Option Console :=
  if c.history_position > 0 then
    match c.command_history.get? (c.history_position - 1) with
    | none => none
    | some entry =>
      let c2 := { c with input_buffer := entry, cursor_position := entry.length }
      some (if c2.history_position > 0 then
              { c2 with history_position := c2.history_position - 1 }
            else c2)
  else some c

/-- `Console::history_navigate_forward`.  `none` models the panic of the
index expression `command_history[history_position + 1]` when out of bounds. -/
def history_navigate_forward (c : Console) : Option Console :=
  if 0 < c.command_history.length ∧
     c.history_position < c.command_history.length - 1 then
    match c.command_history.get? (c.history_position + 1) with
    | none => none
    | some entry =>
      let c2 := { c with input_buffer := entry, cursor_position := entry.length }
      some (if c2.history_position < c2.command_history.length then
              { c2 with history_position := c2.history_position + 1 }
            else c2)
  else some c

/-- `Console::try_process_command`: return and clear the pending command. -/
def try_process_command (c : Console) : Option (List Nat) × Console :=
  if c.last_command = [] then (none, c)
  else (some c.last_command, { c with last_command := [] })

/-- `Console::print`: append to the still-open last line, or start a new one.
`none` models the panic of `self.buffer.last_mut().unwrap()` when the line
vector is empty while `line_ending` is false. -/
def print (text : List Nat) (c : Console) : Option Console :=
  if c.line_ending then
    some { c with buffer := c.buffer ++ [text], line_ending := false }
  else
    match c.buffer.getLast? with
    | none => none
    | some last => some { c with buffer := c.buffer.dropLast ++ [last ++ text]
                                 line_ending := false }

/-- `Console::println`: push the text as a line of its own and mark the line
as terminated. -/
def println (text : List Nat) (c : Console) : Console :=
  { c with buffer := c.buffer ++ [text], line_ending := true }

/-- `Console::print_lines`: `println` once per line of the text. -/
def print_lines (text : List Nat) (c : Console) : Console :=
  (split_lines text).foldl (fun acc line => println line acc) c

/-- `Console::wrap_line`. -/
def wrap_line (c : Console) : Console :=
  { c with buffer := c.buffer ++ [[]], line_ending := false }

/-- `Console::toggle`. -/
def toggle (time : Nat) (c : Console) : Console :=
  let c2 := { c with visible := !c.visible }
  if c2.visible then { c2 with visible_start_time := time } else c2

/-- `Console::add_text`: insert the FIRST character of the input string at
the cursor, then advance the cursor by the byte length of the WHOLE input
string.  `none` models the two possible panics (`chars().next().unwrap()` on
an empty input, and `String::insert` off a boundary). -/
def add_text (input : List Nat) (c : Console) : Option Console :=
  match utf8_first_char input with
  | none => none
  | some ch =>
    match string_insert c.input_buffer c.cursor_position ch with
    | none => none
    | some buf =>
      some { c with input_buffer := buf
                    cursor_position := c.cursor_position + input.length }

/-- `Console::cursor_left`: decrement, then walk down to a boundary. -/
def cursor_left (c : Console) : Console :=
  if c.cursor_position > 0 then
    { c with cursor_position := seek_boundary_down c.input_buffer (c.cursor_position - 1) }
  else c

/-- `Console::cursor_right`: increment, then walk up to a boundary. -/
def cursor_right (c : Console) : Console :=
  if c.cursor_position < c.input_buffer.length then
    { c with cursor_position := seek_boundary_up c.input_buffer (c.cursor_position + 1) }
  else c

/-- `Console::backspace`: when visible and not at the start, move the cursor
left to the previous boundary and remove the character there. -/
def backspace (c : Console) : Option Console :=
  if c.visible ∧ c.cursor_position > 0 then
    let pos := seek_boundary_down c.input_buffer (c.cursor_position - 1)
    match string_remove c.input_buffer pos with
    | none => none
    | some buf => some { c with cursor_position := pos, input_buffer := buf }
  else some c

/-!  Event-level handlers: the branches of `Console::process` for each raw
input event, including their visibility guards. -/

/-- `Event::TextInput` branch of `process`: accepted only while visible and
after the 50ms debounce window following the toggle. -/
def text_input (input : List Nat) (timestamp : Nat) (c : Console) : Option Console :=
  if c.visible ∧ c.visible_start_time + 50 < timestamp then add_text input c
  else some c

/-- `Event::MouseWheel` branch of `process`: scroll the backbuffer offset by
six pixels per wheel step, clamped at zero, and only when the buffer is
taller than the visible area.  The `u32` subtraction on the right-hand side
of the comparison is modelled by truncating `Nat` subtraction. -/
def mouse_wheel (y : Int) (c : Console) : Console :=
  if c.visible then
    if c.buffer.length * FONT_SIZE > c.size.2 - FONT_SIZE * 2 then
      let y2 := c.backbuffer_y + y * 6
      { c with backbuffer_y := if y2 < 0 then 0 else y2 }
    else c
  else c

/-- `Keycode::Left` branch of `process` (KeyDown, console visible). -/
def key_left (c : Console) : Console :=
  if c.visible then cursor_left c else c

/-- `Keycode::Right` branch of `process` (KeyDown, console visible). -/
def key_right (c : Console) : Console :=
  if c.visible then cursor_right c else c

/-- `Keycode::Backspace` branch of `process` (KeyDown, console visible). -/
def key_backspace (c : Console) : Option Console :=
  if c.visible then backspace c else some c

/-- `Keycode::Delete` branch of `process` (KeyDown, console visible): bump the
cursor one byte to the right and backspace. -/
def key_delete (c : Console) : Option Console :=
  if c.visible then
    if c.cursor_position < c.input_buffer.length then
      backspace { c with cursor_position := c.cursor_position + 1 }
    else some c
  else some c

/-- `Keycode::Return` branch of `process` (KeyUp, console visible). -/
def key_return (c : Console) : Console :=
  if c.visible then commit c else c

/-- `Keycode::End` branch of `process` (KeyUp, console visible). -/
def key_end (c : Console) : Console :=
  if c.visible then { c with cursor_position := c.input_buffer.length } else c

/-- `Keycode::Home` branch of `process` (KeyUp, console visible). -/
def key_home (c : Console) : Console :=
  if c.visible then { c with cursor_position := 0 } else c

/-- `Keycode::Up` branch of `process` (KeyUp, console visible), with the
guard against history navigation right after an automatic toggle. -/
def key_up (timestamp : Nat) (c : Console) : Option Console :=
  if c.visible then
    if c.visible_start_time > 0 then history_navigate_back c
    else some { c with visible_start_time := timestamp }
  else some c

/-- `Keycode::Down` branch of `process` (KeyUp, console visible). -/
def key_down (timestamp : Nat) (c : Console) : Option Console :=
  if c.visible then
    if c.visible_start_time > 0 then history_navigate_forward c
    else some { c with visible_start_time := timestamp }
  else some c

/-- `Keycode::C` branch of `process` (KeyDown, console visible): with Ctrl
held, append `^C` to the input line and commit it. -/
def key_c (c : Console) : Console :=
  if c.visible then
    if c.ctrl then commit { c with input_buffer := c.input_buffer ++ ascii "^C" }
    else c
  else c

/-- Ctrl key tracking (KeyDown / KeyUp branches, console visible). -/
def key_ctrl (down : Bool) (c : Console) : Console :=
  if c.visible then { c with ctrl := down } else c

/-- Shift key tracking (KeyDown / KeyUp branches, console visible). -/
def key_shift (down : Bool) (c : Console) : Console :=
  if c.visible then { c with shift := down } else c

/-!  Renderer model.  `generate_backbuffer_texture` iterates
`self.buffer.iter().rev().take(200)`, skips lines that trim to empty, and
calls `self.font.render(line)` (the rasterization capability) once per
remaining line.  We model its observable effect trace: the list of lines the
loop lays out, and the sub-list it rasterizes. -/

/-- ASCII whitespace as used by `str::trim` (the non-ASCII Unicode
whitespace characters are multi-byte and do not occur in the claims). -/
def is_ws_byte (b : Nat) : Bool :=
  b == 32 || (9 ≤ b && b ≤ 13)

/-- `line.trim().is_empty()`. -/
def is_blank_line (l : List Nat) : Bool :=
  l.all is_ws_byte

/-- The lines visited by the render loop: the newest 200 entries of the
scroll-back buffer. -/
def backbuffer_lines (c : Console) : List (List Nat) :=
  c.buffer.reverse.take 200

/-- The lines passed to the rasterization capability: the visited lines that
do not trim to empty. -/
def raster_calls (c : Console) : List (List Nat) :=
  (backbuffer_lines c).filter (fun l => !is_blank_line l)

/-!  The console-state operations as a single step relation, for stating
invariants over every operation. -/

/-- One console-state operation: the event-level handlers plus the printing
API exposed to the external command processor. -/
inductive Op where
  | text (input : List Nat) (timestamp : Nat)
  | wheel (y : Int)
  | left
  | right
  | home
  | endKey
  | back
  | del
  | ret
  | up (timestamp : Nat)
  | down (timestamp : Nat)
  | ctrlC
  | ctrlKey (down : Bool)
  | shiftKey (down : Bool)
  | tog (timestamp : Nat)
  | doPrint (t : List Nat)
  | doPrintln (t : List Nat)
  | doPrintLines (t : List Nat)
  | doWrap
  | doClear
deriving DecidableEq, Repr

/-- Apply one operation; `none` is a panic. -/
def step (op : Op) (c : Console) : Option Console :=
  match op with
  | .text input ts => text_input input ts c
  | .wheel y => some (mouse_wheel y c)
  | .left => some (key_left c)
  | .right => some (key_right c)
  | .home => some (key_home c)
  | .endKey => some (key_end c)
  | .back => key_backspace c
  | .del => key_delete c
  | .ret => some (key_return c)
  | .up ts => key_up ts c
  | .down ts => key_down ts c
  | .ctrlC => some (key_c c)
  | .ctrlKey d => some (key_ctrl d c)
  | .shiftKey d => some (key_shift d c)
  | .tog ts => some (toggle ts c)
  | .doPrint t => print t c
  | .doPrintln t => some (println t c)
  | .doPrintLines t => some (print_lines t c)
  | .doWrap => some (wrap_line c)
  | .doClear => some (clear c)

/-- The text payload of a text-input operation is a single UTF-8 character:
one non-continuation byte followed only by continuation bytes.  Every other
operation carries no text payload. -/
def op_single_char : Op → Bool
  | .text input _ =>
    match input with
    | [] => false
    | b :: rest => !is_cont_byte b && rest.all is_cont_byte
  | _ => true

/-- The cursor invariant claimed by the spec: the cursor offset is a valid
character boundary of the input buffer and is at most its length. -/
def cursor_ok (c : Console) : Bool :=
  is_char_boundary c.input_buffer c.cursor_position &&
    decide (c.cursor_position ≤ c.input_buffer.length)

/-- Well-formedness of a console state: the input buffer and every history
entry start with a non-continuation byte (as every Rust `String` does), and
the cursor invariant holds. -/
def console_wf (c : Console) : Bool :=
  head_non_cont c.input_buffer &&
    c.command_history.all head_non_cont &&
    cursor_ok c

/-!  Concrete states used by the claim theorems and witnesses. -/

/-- An otherwise fresh, visible console whose input line reads `help`. -/
def cHelp : Console :=
  { initConsole with visible := true, input_buffer := ascii "help", cursor_position := 4 }

/-- The state reached from `cHelp` by `commit` followed by
`history_navigate_back`. -/
def cBack : Console :=
  { cHelp with buffer := [ascii "hakka> help"]
               command_history := [ascii "help"]
               last_command := ascii "help"
               history_position := 0 }

/-- A console whose scroll-back buffer holds 250 non-blank lines. -/
def c250 : Console :=
  { initConsole with buffer := List.replicate 250 (ascii "line") }

/-- A visible console with the two-character ASCII input line `ab` and the
cursor at its start. -/
def wAB : Console :=
  { initConsole with visible := true, input_buffer := ascii "ab" }

/-- The state reached from `wAB` by typing the character `m`. -/
def wABm : Console :=
  { wAB with input_buffer := [109, 97, 98], cursor_position := 1 }

/-- A console with an open (unterminated) scroll-back line. -/
def wOpen : Console :=
  { cHelp with line_ending := false, buffer := [ascii "out"] }

/-!  Basic facts about character boundaries and the two boundary-seeking
loops. -/

lemma boundary_iff (s : List Nat) (i : Nat) :
    is_char_boundary s i = true ↔
      i = 0 ∨ i = s.length ∨ ∃ b, s.get? i = some b ∧ is_cont_byte b = false := by
  unfold is_char_boundary
  by_cases h0 : i = 0
  · simp [h0]
  · simp only [h0, if_false]
    cases hg : s.get? i with
    | none =>
      simp [h0]
    | some b =>
      have hlt : i < s.length := by
        by_contra hc
        rw [List.get?_eq_none.mpr (by omega)] at hg
        cases hg
      constructor
      · intro h
        refine Or.inr (Or.inr ⟨b, rfl, ?_⟩)
        simpa using h
      · rintro (h | h | ⟨b2, hb2, hc2⟩)
        · exact h.elim
        · omega
        · injection hb2 with hh
          subst hh
          simpa using hc2

lemma boundary_zero (s : List Nat) : is_char_boundary s 0 = true := by
  simp [is_char_boundary]

lemma boundary_length (s : List Nat) : is_char_boundary s s.length = true := by
  rw [boundary_iff]
  exact Or.inr (Or.inl rfl)

lemma boundary_le {s : List Nat} {i : Nat} (h : is_char_boundary s i = true) :
    i ≤ s.length := by
  rcases (boundary_iff s i).mp h with h0 | hl | ⟨b, hb, _⟩
  · omega
  · omega
  · by_contra hc
    rw [List.get?_eq_none.mpr (by omega)] at hb
    cases hb

lemma seek_down_le (s : List Nat) (k : Nat) : seek_boundary_down s k ≤ k := by
  induction k with
  | zero => simp [seek_boundary_down]
  | succ n ih =>
    rw [seek_boundary_down]
    split
    · omega
    · omega

lemma seek_down_boundary (s : List Nat) (k : Nat) :
    is_char_boundary s (seek_boundary_down s k) = true := by
  induction k with
  | zero => simpa [seek_boundary_down] using boundary_zero s
  | succ n ih =>
    rw [seek_boundary_down]
    split
    · assumption
    · exact ih

lemma seek_up_boundary (s : List Nat) (k : Nat) (hk : k ≤ s.length) :
    is_char_boundary s (seek_boundary_up s k) = true := by
  rw [seek_boundary_up]
  cases hb : is_char_boundary s k with
  | true => simp [hb]
  | false =>
    have hlt : k < s.length := by
      rcases Nat.eq_or_lt_of_le hk with he | hl
      · rw [he, boundary_length] at hb
        cases hb
      · exact hl
    simp only [hb, Bool.false_eq_true, if_false, hlt, if_true]
    exact seek_up_boundary s (k + 1) hlt
termination_by s.length - k
decreasing_by omega

lemma seek_up_ge (s : List Nat) (k : Nat) : k ≤ seek_boundary_up s k := by
  rw [seek_boundary_up]
  cases hb : is_char_boundary s k with
  | true => simp [hb]
  | false =>
    by_cases hlt : k < s.length
    · simp only [hb, Bool.false_eq_true, if_false, hlt, if_true]
      have := seek_up_ge s (k + 1)
      omega
    · simp [hb, hlt]
termination_by s.length - k
decreasing_by omega

lemma seek_down_after_up (s : List Nat) (k : Nat) (h1 : 1 ≤ k) (h2 : k ≤ s.length) :
    seek_boundary_down s (seek_boundary_up s k - 1) =
      seek_boundary_down s (k - 1) := by
  rw [seek_boundary_up]
  cases hb : is_char_boundary s k with
  | true => simp [hb]
  | false =>
    have hlt : k < s.length := by
      rcases Nat.eq_or_lt_of_le h2 with he | hl
      · rw [he, boundary_length] at hb
        cases hb
      · exact hl
    simp only [hb, Bool.false_eq_true, if_false, hlt, if_true]
    have ih := seek_down_after_up s (k + 1) (by omega) hlt
    simp only [Nat.add_sub_cancel] at ih
    rw [ih]
    obtain ⟨q, rfl⟩ : ∃ q, k = q + 1 := ⟨k - 1, by omega⟩
    rw [seek_boundary_down]
    simp [hb]
termination_by s.length - k
decreasing_by omega

/-!  Structural facts about `commit`. -/

lemma ascii_exit : ascii "exit" = [101, 120, 105, 116] := by decide

lemma commit_buffer (c : Console) :
    (commit c).buffer = c.buffer ++ [ascii "hakka> " ++ c.input_buffer] := by
  unfold commit process_command
  by_cases h0 : c.input_buffer = [] <;>
    by_cases hx : c.input_buffer = [101, 120, 105, 116] <;>
      by_cases he : c.exited <;>
        simp [h0, hx, he, ascii_exit]

lemma commit_line_ending (c : Console) : (commit c).line_ending = c.line_ending := by
  unfold commit process_command
  by_cases h0 : c.input_buffer = [] <;>
    by_cases hx : c.input_buffer = [101, 120, 105, 116] <;>
      by_cases he : c.exited <;>
        simp [h0, hx, he, ascii_exit]

/-- C1 (counterexample): `commit` does not return normally on the input
`exit`: `process_command` compares the committed text against the literal
`exit` and calls `std::process::exit(0)` (the `exited` flag of the model), so
`commit` is not agnostic to command semantics. -/
theorem commit_exit_exits :
    (commit { initConsole with input_buffer := ascii "exit" }).exited = true := by
  decide

/-- C1 (amended): for every input other than the literal `exit`, `commit`
appends the echoed line to the scroll-back log, pushes the text onto history
exactly when it is non-empty, stores it for external dispatch, resets the
buffer and cursor, resets the history index to the history length, and
returns normally. -/
theorem commit_semantics_agnostic_except_exit (c : Console)
    (hex : c.exited = false) (hne : c.input_buffer ≠ ascii "exit") :
    (commit c).exited = false ∧
    (commit c).buffer = c.buffer ++ [ascii "hakka> " ++ c.input_buffer] ∧
    (commit c).command_history =
      (if c.input_buffer = [] then c.command_history
       else c.command_history ++ [c.input_buffer]) ∧
    (commit c).last_command =
      (if c.input_buffer = [] then c.last_command else c.input_buffer) ∧
    (commit c).input_buffer = [] ∧
    (commit c).cursor_position = 0 ∧
    (commit c).history_position = (commit c).command_history.length := by
  rw [ascii_exit] at hne
  by_cases h0 : c.input_buffer = []
  · simp [commit, process_command, h0, hex]
  · simp [commit, process_command, h0, hne, hex, ascii_exit]

/-- Witness for `commit_semantics_agnostic_except_exit` at the concrete
state `cHelp`. -/
theorem commit_semantics_witness :
    (commit cHelp).exited = false ∧
    (commit cHelp).buffer = cHelp.buffer ++ [ascii "hakka> " ++ cHelp.input_buffer] ∧
    (commit cHelp).command_history =
      (if cHelp.input_buffer = [] then cHelp.command_history
       else cHelp.command_history ++ [cHelp.input_buffer]) ∧
    (commit cHelp).last_command =
      (if cHelp.input_buffer = [] then cHelp.last_command else cHelp.input_buffer) ∧
    (commit cHelp).input_buffer = [] ∧
    (commit cHelp).cursor_position = 0 ∧
    (commit cHelp).history_position = (commit cHelp).command_history.length :=
  commit_semantics_agnostic_except_exit cHelp (by decide) (by decide)

/-- C2 (counterexample): starting from an empty console, committing `help`,
navigating back, then navigating forward leaves the input buffer equal to
`help`, not the empty buffer the claim demands. -/
theorem history_forward_after_back_not_empty :
    Option.map Console.input_buffer
        ((history_navigate_back (commit cHelp)).bind history_navigate_forward) =
      some (ascii "help") ∧ ascii "help" ≠ ([] : List Nat) := by
  constructor
  · decide
  · decide

/-- C2 (amended): committing `help` then `history_navigate_back` sets the
input buffer to `help`; the subsequent `history_navigate_forward` is a no-op
(the history index already sits less than two below the history length), so
the buffer stays `help` rather than being cleared. -/
theorem history_back_forward_trace :
    history_navigate_back (commit cHelp) = some cBack ∧
    cBack.input_buffer = ascii "help" ∧
    history_navigate_forward cBack = some cBack := by
  refine ⟨by decide, by decide, by decide⟩

/-- C3 (code evaluated at the failing inputs): `print` after `clear` panics
(`clear` empties the line vector but leaves `line_ending` false, so the next
`print` runs `self.buffer.last_mut().unwrap()` on an empty vector), and
`add_text` with an empty text-input string panics on
`input.chars().next().unwrap()`.  Both contradict the claim that no console
operation can panic. -/
theorem print_after_clear_and_empty_add_text_panic :
    Option.bind (Option.map clear (print (ascii "x") initConsole)) (print (ascii "y")) =
      none ∧
    add_text [] initConsole = none := by
  constructor
  · decide
  · decide

/-- C4 (counterexample): `add_text` with the two-character text-input string
`ab` inserts only the first character but advances the cursor by the byte
length of the whole string: from an empty buffer the cursor lands at 2 while
the buffer has length 1, violating `cursor ≤ length(text)` (and the boundary
property). -/
theorem add_text_two_chars_cursor_out_of_bounds :
    Option.map cursor_ok (add_text (ascii "ab") initConsole) = some false := by
  decide

/-- C5: `try_process_command` delivers a committed command at most once:
after `commit` of a non-empty input (other than the process-terminating
`exit`), the first call returns the command and clears the stored copy, so
the second consecutive call returns `none`. -/
theorem try_process_command_at_most_once (c : Console)
    (h1 : c.input_buffer ≠ []) (h2 : c.input_buffer ≠ ascii "exit")
    (h3 : c.exited = false) :
    (try_process_command (commit c)).1 = some c.input_buffer ∧
    (try_process_command (commit c)).2.last_command = [] ∧
    (try_process_command (try_process_command (commit c)).2).1 = none := by
  rw [ascii_exit] at h2
  simp [commit, process_command, h1, h2, h3, try_process_command, ascii_exit]

/-- Witness for `try_process_command_at_most_once` at `cHelp`. -/
theorem try_process_command_at_most_once_witness :
    (try_process_command (commit cHelp)).1 = some cHelp.input_buffer ∧
    (try_process_command (commit cHelp)).2.last_command = [] ∧
    (try_process_command (try_process_command (commit cHelp)).2).1 = none :=
  try_process_command_at_most_once cHelp (by decide) (by decide) (by decide)

/-- C6: committing with an empty input buffer is dropped silently: the
history is unchanged and, when no earlier command is pending,
`try_process_command` afterwards returns `none`. -/
theorem empty_commit_is_dropped (c : Console) (h1 : c.input_buffer = [])
    (h2 : c.last_command = []) :
    (commit c).command_history = c.command_history ∧
    (try_process_command (commit c)).1 = none := by
  by_cases he : c.exited <;>
    simp [commit, process_command, h1, h2, he, try_process_command]

/-- Witness for `empty_commit_is_dropped` at the fresh console. -/
theorem empty_commit_is_dropped_witness :
    (commit initConsole).command_history = initConsole.command_history ∧
    (try_process_command (commit initConsole)).1 = none :=
  empty_commit_is_dropped initConsole (by decide) (by decide)

/-- C7: from an empty log, `println "line1"` then `print "line2"` then
`print "-cont"` yields the scroll-back log `["line1", "line2-cont"]`:
`println` closes its line, the first `print` opens a new line, and the
second `print` appends to it. -/
theorem println_print_print_scenario :
    Option.map Console.buffer
        (Option.bind (print (ascii "line2") (println (ascii "line1") initConsole))
          (print (ascii "-cont"))) =
      some [ascii "line1", ascii "line2-cont"] := by
  decide

set_option maxRecDepth 10000 in
/-- C9: one renderer pass visits at most 200 scroll-back lines and calls the
text-rasterization capability at most 200 times, for every console state;
with 250 appended non-blank lines the rasterization count is exactly 200. -/
theorem render_at_most_200_lines :
    (∀ c : Console,
        (backbuffer_lines c).length ≤ 200 ∧ (raster_calls c).length ≤ 200) ∧
    (raster_calls c250).length = 200 := by
  constructor
  · intro c
    have h1 : (backbuffer_lines c).length ≤ 200 := by
      simp [backbuffer_lines, List.length_take]
    exact ⟨h1, le_trans (List.length_filter_le _ _) h1⟩
  · decide

/-- C10: `commit` pushes the echoed `hakka> ...` line without touching the
open-line flag, so when the last line was open, a following `print` appends
its text to the echoed command line instead of starting a new line. -/
theorem commit_preserves_open_line (c : Console) (t : List Nat)
    (hline : c.line_ending = false) :
    (commit c).line_ending = false ∧
    print t (commit c) =
      some { commit c with
               buffer := c.buffer ++ [ascii "hakka> " ++ c.input_buffer ++ t]
               line_ending := false } := by
  have hb := commit_buffer c
  have hl := commit_line_ending c
  refine ⟨by rw [hl, hline], ?_⟩
  simp [print, hl, hline, hb, List.getLast?_concat, List.dropLast_concat]

/-- Witness for `commit_preserves_open_line` at `wOpen`. -/
theorem commit_preserves_open_line_witness :
    (commit wOpen).line_ending = false ∧
    print (ascii "!") (commit wOpen) =
      some { commit wOpen with
               buffer := wOpen.buffer ++ [ascii "hakka> " ++ wOpen.input_buffer ++ ascii "!"]
               line_ending := false } :=
  commit_preserves_open_line wOpen (ascii "!") (by decide)

/-- C8: the Delete-key handler of `process` produces exactly the state that
Cursor-Right followed by Backspace produces, whenever the cursor is not at
the end of the input buffer (when the console is hidden, all three handlers
are no-ops). -/
theorem delete_forward_equiv_right_backspace (c : Console)
    (h : c.cursor_position < c.input_buffer.length) :
    key_delete c = key_backspace (key_right c) := by
  by_cases hv : c.visible
  · have hle : c.cursor_position + 1 ≤ c.input_buffer.length := h
    have hpos : seek_boundary_down c.input_buffer
          (seek_boundary_up c.input_buffer (c.cursor_position + 1) - 1) =
        seek_boundary_down c.input_buffer c.cursor_position := by
      simpa using seek_down_after_up c.input_buffer (c.cursor_position + 1) (by omega) hle
    have hge := seek_up_ge c.input_buffer (c.cursor_position + 1)
    have lhs_eq : key_delete c =
        backspace { c with cursor_position := c.cursor_position + 1 } := by
      simp [key_delete, hv, h]
    have rhs_eq : key_backspace (key_right c) =
        backspace
          { c with cursor_position := seek_boundary_up c.input_buffer (c.cursor_position + 1) } := by
      simp [key_backspace, key_right, cursor_right, hv, h]
    rw [lhs_eq, rhs_eq]
    unfold backspace
    simp only [hv, true_and, if_true]
    rw [if_pos (by omega : 0 < c.cursor_position + 1)]
    rw [if_pos (by omega : 0 < seek_boundary_up c.input_buffer (c.cursor_position + 1))]
    simp [hpos]
  · simp [key_delete, key_right, key_backspace, hv]

/-!  Lemmas for the well-formedness invariant (claim C4). -/

lemma head_non_cont_nil : head_non_cont [] = true := rfl

lemma head_non_cont_cons (b : Nat) (t : List Nat) :
    head_non_cont (b :: t) = !is_cont_byte b := rfl

lemma get?_insert_at (s l : List Nat) (i : Nat) (hi : i ≤ s.length) :
    (s.take i ++ l ++ s.drop i).get? (i + l.length) = s.get? i := by
  have hlen : (s.take i).length = i := by
    simp [List.length_take]
    omega
  rw [List.append_assoc, List.get?_append_right (by omega), hlen]
  rw [List.get?_append_right (by omega)]
  have : i + l.length - i - l.length = 0 := by omega
  rw [this, List.get?_drop, Nat.add_zero]

lemma boundary_insert (s l : List Nat) (i : Nat)
    (hb : is_char_boundary s i = true) (hh : head_non_cont s = true) :
    is_char_boundary (s.take i ++ l ++ s.drop i) (i + l.length) = true := by
  have hi : i ≤ s.length := boundary_le hb
  rw [boundary_iff]
  by_cases h0 : i + l.length = 0
  · exact Or.inl h0
  cases hg : s.get? i with
  | some b =>
    have hcont : is_cont_byte b = false := by
      rcases (boundary_iff s i).mp hb with h | h | ⟨b2, hb2, hc2⟩
      · subst h
        unfold head_non_cont at hh
        rw [hg] at hh
        simpa using hh
      · exfalso
        rw [h, List.get?_eq_none.mpr (le_refl _)] at hg
        cases hg
      · rw [hg] at hb2
        injection hb2 with hbb
        subst hbb
        exact hc2
    refine Or.inr (Or.inr ⟨b, ?_, hcont⟩)
    rw [get?_insert_at s l i hi, hg]
  | none =>
    have hlen : s.length ≤ i := List.get?_eq_none.mp hg
    refine Or.inr (Or.inl ?_)
    simp [List.length_append, List.length_take, List.length_drop]
    omega

lemma head_insert (s l : List Nat) (i : Nat) (hh : head_non_cont s = true)
    (hl : head_non_cont l = true) (hne : l ≠ []) :
    head_non_cont (s.take i ++ l ++ s.drop i) = true := by
  cases l with
  | nil => exact absurd rfl hne
  | cons b r =>
    cases s with
    | nil => simpa [head_non_cont] using hl
    | cons a t =>
      cases i with
      | zero => simpa [head_non_cont] using hl
      | succ j => simpa [head_non_cont] using hh

lemma get?_after_takeWhile (p : Nat → Bool) (l : List Nat) :
    l.get? (l.takeWhile p).length = none ∨
      ∃ b, l.get? (l.takeWhile p).length = some b ∧ p b = false := by
  induction l with
  | nil => exact Or.inl rfl
  | cons a t ih =>
    cases hp : p a with
    | true =>
      rcases ih with h | ⟨b, hb, hpb⟩
      · refine Or.inl ?_
        simpa [List.takeWhile_cons, hp] using h
      · refine Or.inr ⟨b, ?_, hpb⟩
        simpa [List.takeWhile_cons, hp] using hb
    | false =>
      refine Or.inr ⟨a, ?_, hp⟩
      simp [List.takeWhile_cons, hp]

lemma remove_result_boundary (s : List Nat) (idx : Nat) (h1 : idx < s.length) :
    is_char_boundary
      (s.take idx ++
        s.drop (idx + 1 + ((s.drop (idx + 1)).takeWhile is_cont_byte).length)) idx = true := by
  by_cases h0 : idx = 0
  · subst h0
    exact boundary_zero _
  have hlen_take : (s.take idx).length = idx := by
    simp [List.length_take]
    omega
  have hget : (s.take idx ++
      s.drop (idx + 1 + ((s.drop (idx + 1)).takeWhile is_cont_byte).length)).get? idx =
      (s.drop (idx + 1)).get? ((s.drop (idx + 1)).takeWhile is_cont_byte).length := by
    rw [List.get?_append_right (by omega)]
    rw [hlen_take, Nat.sub_self, List.get?_drop, List.get?_drop, Nat.add_zero]
  rw [boundary_iff]
  rcases get?_after_takeWhile is_cont_byte (s.drop (idx + 1)) with hnone | ⟨b, hb, hpb⟩
  · refine Or.inr (Or.inl ?_)
    have hdl : s.length - (idx + 1) ≤ ((s.drop (idx + 1)).takeWhile is_cont_byte).length := by
      have := List.get?_eq_none.mp hnone
      simpa [List.length_drop] using this
    simp [List.length_append, List.length_drop, hlen_take]
    omega
  · refine Or.inr (Or.inr ⟨b, ?_, hpb⟩)
    rw [hget, hb]

lemma remove_result_head (s : List Nat) (idx : Nat) (hh : head_non_cont s = true) :
    head_non_cont
      (s.take idx ++
        s.drop (idx + 1 + ((s.drop (idx + 1)).takeWhile is_cont_byte).length)) = true := by
  cases s with
  | nil => simp [head_non_cont]
  | cons a t =>
    cases idx with
    | succ j => simpa [head_non_cont] using hh
    | zero =>
      simp only [List.take_zero, List.nil_append]
      have harith : 0 + 1 + (((a :: t).drop (0 + 1)).takeWhile is_cont_byte).length =
          (t.takeWhile is_cont_byte).length + 1 := by
        simp [List.drop]
        omega
      rw [harith, List.drop_succ_cons]
      unfold head_non_cont
      rw [List.get?_drop, Nat.add_zero]
      rcases get?_after_takeWhile is_cont_byte t with hnone | ⟨b, hb, hpb⟩
      · rw [hnone]
      · rw [hb]
        simp [hpb]

lemma boundary_append_noncont (s : List Nat) (i : Nat) (b : Nat) (t : List Nat)
    (hb : is_char_boundary s i = true) (hcont : is_cont_byte b = false) :
    is_char_boundary (s ++ b :: t) i = true := by
  rw [boundary_iff]
  rcases (boundary_iff s i).mp hb with h | h | ⟨b2, hb2, hc2⟩
  · exact Or.inl h
  · refine Or.inr (Or.inr ⟨b, ?_, hcont⟩)
    rw [List.get?_append_right (by omega), h, Nat.sub_self]
    rfl
  · have hlt : i < s.length := by
      by_contra hc
      rw [List.get?_eq_none.mpr (by omega)] at hb2
      cases hb2
    refine Or.inr (Or.inr ⟨b2, ?_, hc2⟩)
    rw [List.get?_append hlt, hb2]

lemma console_wf_of (c : Console) (hh : head_non_cont c.input_buffer = true)
    (hall : c.command_history.all head_non_cont = true)
    (hb : is_char_boundary c.input_buffer c.cursor_position = true) :
    console_wf c = true ∧
    is_char_boundary c.input_buffer c.cursor_position = true ∧
    c.cursor_position ≤ c.input_buffer.length := by
  have hle := boundary_le hb
  refine ⟨?_, hb, hle⟩
  simp [console_wf, cursor_ok, hh, hall, hb, hle]

lemma console_wf_of_transfer (c c' : Console)
    (hh : head_non_cont c.input_buffer = true)
    (hall : c.command_history.all head_non_cont = true)
    (hb : is_char_boundary c.input_buffer c.cursor_position = true)
    (h1 : c'.input_buffer = c.input_buffer)
    (h2 : c'.cursor_position = c.cursor_position)
    (h3 : c'.command_history = c.command_history) :
    console_wf c' = true ∧
    is_char_boundary c'.input_buffer c'.cursor_position = true ∧
    c'.cursor_position ≤ c'.input_buffer.length :=
  console_wf_of c' (by rw [h1]; exact hh) (by rw [h3]; exact hall)
    (by rw [h1, h2]; exact hb)

lemma backspace_active_wf (c c' : Console) (hv : c.visible = true)
    (hc0 : 0 < c.cursor_position) (hcur : c.cursor_position ≤ c.input_buffer.length)
    (hh : head_non_cont c.input_buffer = true)
    (hstep : backspace c = some c') :
    head_non_cont c'.input_buffer = true ∧
    is_char_boundary c'.input_buffer c'.cursor_position = true ∧
    c'.command_history = c.command_history := by
  unfold backspace at hstep
  rw [if_pos ⟨hv, hc0⟩] at hstep
  have hple : seek_boundary_down c.input_buffer (c.cursor_position - 1) ≤
      c.cursor_position - 1 := seek_down_le _ _
  have hplt : seek_boundary_down c.input_buffer (c.cursor_position - 1) <
      c.input_buffer.length := by omega
  have hpb : is_char_boundary c.input_buffer
      (seek_boundary_down c.input_buffer (c.cursor_position - 1)) = true :=
    seek_down_boundary _ _
  simp only [string_remove] at hstep
  rw [if_pos ⟨hplt, hpb⟩] at hstep
  injection hstep with hc'
  subst hc'
  exact ⟨remove_result_head _ _ hh, remove_result_boundary _ _ hplt, rfl⟩

lemma add_text_single_wf (c c' : Console) (b : Nat) (rest : List Nat)
    (hbnc : is_cont_byte b = false) (hrest : rest.all is_cont_byte = true)
    (hb : is_char_boundary c.input_buffer c.cursor_position = true)
    (hh : head_non_cont c.input_buffer = true)
    (hstep : add_text (b :: rest) c = some c') :
    head_non_cont c'.input_buffer = true ∧
    is_char_boundary c'.input_buffer c'.cursor_position = true ∧
    c'.command_history = c.command_history := by
  have htw : rest.takeWhile is_cont_byte = rest :=
    List.takeWhile_eq_self_iff.mpr (by simpa using List.all_eq_true.mp hrest)
  unfold add_text at hstep
  simp only [utf8_first_char, htw, string_insert] at hstep
  rw [if_pos hb] at hstep
  injection hstep with hc'
  subst hc'
  refine ⟨head_insert _ _ _ hh ?_ (by simp), ?_, rfl⟩
  · simpa [head_non_cont] using hbnc
  · simpa using boundary_insert c.input_buffer (b :: rest) c.cursor_position hb hh

lemma commit_wf (c : Console)
    (hh : head_non_cont c.input_buffer = true)
    (hall : c.command_history.all head_non_cont = true)
    (hb : is_char_boundary c.input_buffer c.cursor_position = true) :
    head_non_cont (commit c).input_buffer = true ∧
    (commit c).command_history.all head_non_cont = true ∧
    is_char_boundary (commit c).input_buffer (commit c).cursor_position = true := by
  unfold commit process_command
  by_cases h0 : c.input_buffer = []
  · rw [h0] at hb
    by_cases he : c.exited <;>
      simp [h0, he, head_non_cont_nil, boundary_zero, hall, hb]
  · by_cases hx : c.input_buffer = [101, 120, 105, 116]
    · rw [hx] at hb hh
      by_cases he : c.exited <;>
        simp [h0, hx, he, ascii_exit, head_non_cont_nil, boundary_zero, hall, hh, hb,
              List.all_append]
    · by_cases he : c.exited <;>
        simp [h0, hx, he, ascii_exit, head_non_cont_nil, boundary_zero, hall, hh, hb,
              List.all_append]

lemma nav_back_wf (c c' : Console)
    (hh : head_non_cont c.input_buffer = true)
    (hall : c.command_history.all head_non_cont = true)
    (hb : is_char_boundary c.input_buffer c.cursor_position = true)
    (hstep : history_navigate_back c = some c') :
    head_non_cont c'.input_buffer = true ∧
    c'.command_history.all head_non_cont = true ∧
    is_char_boundary c'.input_buffer c'.cursor_position = true := by
  by_cases hp : c.history_position > 0
  · cases hg : c.command_history.get? (c.history_position - 1) with
    | none =>
      simp only [history_navigate_back, if_pos hp, hg] at hstep
      exact Option.noConfusion hstep
    | some entry =>
      have hent : head_non_cont entry = true :=
        List.all_eq_true.mp hall entry (List.get?_mem hg)
      simp only [history_navigate_back, if_pos hp, hg] at hstep
      injection hstep with hc'
      subst hc'
      exact ⟨hent, hall, boundary_length entry⟩
  · simp only [history_navigate_back, if_neg hp] at hstep
    injection hstep with hc'
    subst hc'
    exact ⟨hh, hall, hb⟩

lemma nav_forward_wf (c c' : Console)
    (hh : head_non_cont c.input_buffer = true)
    (hall : c.command_history.all head_non_cont = true)
    (hb : is_char_boundary c.input_buffer c.cursor_position = true)
    (hstep : history_navigate_forward c = some c') :
    head_non_cont c'.input_buffer = true ∧
    c'.command_history.all head_non_cont = true ∧
    is_char_boundary c'.input_buffer c'.cursor_position = true := by
  by_cases hp : 0 < c.command_history.length ∧
      c.history_position < c.command_history.length - 1
  · cases hg : c.command_history.get? (c.history_position + 1) with
    | none =>
      simp only [history_navigate_forward, if_pos hp, hg] at hstep
      exact Option.noConfusion hstep
    | some entry =>
      have hent : head_non_cont entry = true :=
        List.all_eq_true.mp hall entry (List.get?_mem hg)
      simp only [history_navigate_forward, if_pos hp, hg] at hstep
      injection hstep with hc'
      subst hc'
      split <;> exact ⟨hent, hall, boundary_length entry⟩
  · simp only [history_navigate_forward, if_neg hp] at hstep
    injection hstep with hc'
    subst hc'
    exact ⟨hh, hall, hb⟩

lemma foldl_println_fields (ls : List (List Nat)) (c : Console) :
    (ls.foldl (fun acc line => println line acc) c).input_buffer = c.input_buffer ∧
    (ls.foldl (fun acc line => println line acc) c).cursor_position = c.cursor_position ∧
    (ls.foldl (fun acc line => println line acc) c).command_history = c.command_history := by
  induction ls generalizing c with
  | nil => exact ⟨rfl, rfl, rfl⟩
  | cons a t ih =>
    simpa [println] using ih (println a c)

lemma ascii_caretC : ascii "^C" = [94, 67] := by decide

/-- C4 (amended): provided every accepted text-input string consists of a
single character (one non-continuation byte followed only by continuation
bytes, as every one-character Rust string is), every console-state operation
preserves well-formedness; in particular, after every operation the cursor
offset lies on a valid character boundary of the input buffer and satisfies
0 ≤ cursor ≤ length(text). -/
theorem step_preserves_console_wf (op : Op) (c c' : Console)
    (hop : op_single_char op = true) (hwf : console_wf c = true)
    (hstep : step op c = some c') :
    console_wf c' = true ∧
    is_char_boundary c'.input_buffer c'.cursor_position = true ∧
    c'.cursor_position ≤ c'.input_buffer.length := by
  have hsplit : head_non_cont c.input_buffer = true ∧
      c.command_history.all head_non_cont = true ∧
      is_char_boundary c.input_buffer c.cursor_position = true := by
    simp only [console_wf, cursor_ok, Bool.and_eq_true, decide_eq_true_eq] at hwf
    exact ⟨hwf.1.1, hwf.1.2, hwf.2.1⟩
  obtain ⟨hh, hall, hb⟩ := hsplit
  cases op with
  | text input ts =>
    simp only [step, text_input] at hstep
    by_cases hg : c.visible ∧ c.visible_start_time + 50 < ts
    · rw [if_pos hg] at hstep
      cases input with
      | nil => simp [op_single_char] at hop
      | cons b rest =>
        simp only [op_single_char, Bool.and_eq_true] at hop
        obtain ⟨h1, h2⟩ := hop
        have hbnc : is_cont_byte b = false := by simpa using h1
        obtain ⟨hh', hb', hhist⟩ := add_text_single_wf c c' b rest hbnc h2 hb hh hstep
        exact console_wf_of c' hh' (by rw [hhist]; exact hall) hb'
    · rw [if_neg hg] at hstep
      injection hstep with h
      subst h
      exact console_wf_of c hh hall hb
  | wheel y =>
    simp only [step] at hstep
    injection hstep with h
    subst h
    refine console_wf_of_transfer c _ hh hall hb ?_ ?_ ?_ <;>
      (unfold mouse_wheel
       split
       · split <;> rfl
       · rfl)
  | left =>
    simp only [step] at hstep
    injection hstep with h
    subst h
    unfold key_left
    by_cases hv : c.visible
    · rw [if_pos hv]
      unfold cursor_left
      by_cases hc0 : c.cursor_position > 0
      · rw [if_pos hc0]
        exact console_wf_of _ hh hall
          (seek_down_boundary c.input_buffer (c.cursor_position - 1))
      · rw [if_neg hc0]
        exact console_wf_of _ hh hall hb
    · rw [if_neg hv]
      exact console_wf_of _ hh hall hb
  | right =>
    simp only [step] at hstep
    injection hstep with h
    subst h
    unfold key_right
    by_cases hv : c.visible
    · rw [if_pos hv]
      unfold cursor_right
      by_cases hc0 : c.cursor_position < c.input_buffer.length
      · rw [if_pos hc0]
        exact console_wf_of _ hh hall
          (seek_up_boundary c.input_buffer (c.cursor_position + 1) (by omega))
      · rw [if_neg hc0]
        exact console_wf_of _ hh hall hb
    · rw [if_neg hv]
      exact console_wf_of _ hh hall hb
  | home =>
    simp only [step] at hstep
    injection hstep with h
    subst h
    unfold key_home
    by_cases hv : c.visible
    · rw [if_pos hv]
      exact console_wf_of _ hh hall (boundary_zero _)
    · rw [if_neg hv]
      exact console_wf_of _ hh hall hb
  | endKey =>
    simp only [step] at hstep
    injection hstep with h
    subst h
    unfold key_end
    by_cases hv : c.visible
    · rw [if_pos hv]
      exact console_wf_of _ hh hall (boundary_length c.input_buffer)
    · rw [if_neg hv]
      exact console_wf_of _ hh hall hb
  | back =>
    simp only [step, key_backspace] at hstep
    by_cases hv : c.visible
    · rw [if_pos hv] at hstep
      by_cases hc0 : 0 < c.cursor_position
      · obtain ⟨hh', hb', hhist⟩ :=
          backspace_active_wf c c' hv hc0 (boundary_le hb) hh hstep
        exact console_wf_of c' hh' (by rw [hhist]; exact hall) hb'
      · unfold backspace at hstep
        rw [if_neg (fun hcon => hc0 hcon.2)] at hstep
        injection hstep with h
        subst h
        exact console_wf_of c hh hall hb
    · rw [if_neg hv] at hstep
      injection hstep with h
      subst h
      exact console_wf_of c hh hall hb
  | del =>
    simp only [step, key_delete] at hstep
    by_cases hv : c.visible
    · rw [if_pos hv] at hstep
      by_cases hlt : c.cursor_position < c.input_buffer.length
      · rw [if_pos hlt] at hstep
        obtain ⟨hh', hb', hhist⟩ :=
          backspace_active_wf { c with cursor_position := c.cursor_position + 1 } c'
            hv (Nat.succ_pos _) hlt hh hstep
        exact console_wf_of c' hh' (by rw [hhist]; exact hall) hb'
      · rw [if_neg hlt] at hstep
        injection hstep with h
        subst h
        exact console_wf_of c hh hall hb
    · rw [if_neg hv] at hstep
      injection hstep with h
      subst h
      exact console_wf_of c hh hall hb
  | ret =>
    simp only [step] at hstep
    injection hstep with h
    subst h
    unfold key_return
    by_cases hv : c.visible
    · rw [if_pos hv]
      obtain ⟨hh', hall', hb'⟩ := commit_wf c hh hall hb
      exact console_wf_of _ hh' hall' hb'
    · rw [if_neg hv]
      exact console_wf_of _ hh hall hb
  | up ts =>
    simp only [step, key_up] at hstep
    by_cases hv : c.visible
    · rw [if_pos hv] at hstep
      by_cases ht : c.visible_start_time > 0
      · rw [if_pos ht] at hstep
        obtain ⟨hh', hall', hb'⟩ := nav_back_wf c c' hh hall hb hstep
        exact console_wf_of _ hh' hall' hb'
      · rw [if_neg ht] at hstep
        injection hstep with h
        subst h
        exact console_wf_of _ hh hall hb
    · rw [if_neg hv] at hstep
      injection hstep with h
      subst h
      exact console_wf_of _ hh hall hb
  | down ts =>
    simp only [step, key_down] at hstep
    by_cases hv : c.visible
    · rw [if_pos hv] at hstep
      by_cases ht : c.visible_start_time > 0
      · rw [if_pos ht] at hstep
        obtain ⟨hh', hall', hb'⟩ := nav_forward_wf c c' hh hall hb hstep
        exact console_wf_of _ hh' hall' hb'
      · rw [if_neg ht] at hstep
        injection hstep with h
        subst h
        exact console_wf_of _ hh hall hb
    · rw [if_neg hv] at hstep
      injection hstep with h
      subst h
      exact console_wf_of _ hh hall hb
  | ctrlC =>
    simp only [step] at hstep
    injection hstep with h
    subst h
    unfold key_c
    by_cases hv : c.visible
    · rw [if_pos hv]
      by_cases hctrl : c.ctrl
      · rw [if_pos hctrl]
        have hhA : head_non_cont (c.input_buffer ++ ascii "^C") = true := by
          rw [ascii_caretC]
          cases hi : c.input_buffer with
          | nil => decide
          | cons a t =>
            rw [hi] at hh
            simpa [head_non_cont] using hh
        have hbA : is_char_boundary (c.input_buffer ++ ascii "^C")
            c.cursor_position = true := by
          rw [ascii_caretC]
          exact boundary_append_noncont c.input_buffer c.cursor_position 94 [67] hb
            (by decide)
        obtain ⟨hh', hall', hb'⟩ :=
          commit_wf { c with input_buffer := c.input_buffer ++ ascii "^C" } hhA hall hbA
        exact console_wf_of _ hh' hall' hb'
      · rw [if_neg hctrl]
        exact console_wf_of _ hh hall hb
    · rw [if_neg hv]
      exact console_wf_of _ hh hall hb
  | ctrlKey d =>
    simp only [step] at hstep
    injection hstep with h
    subst h
    refine console_wf_of_transfer c _ hh hall hb ?_ ?_ ?_ <;>
      (unfold key_ctrl
       split <;> rfl)
  | shiftKey d =>
    simp only [step] at hstep
    injection hstep with h
    subst h
    refine console_wf_of_transfer c _ hh hall hb ?_ ?_ ?_ <;>
      (unfold key_shift
       split <;> rfl)
  | tog ts =>
    simp only [step] at hstep
    injection hstep with h
    subst h
    refine console_wf_of_transfer c _ hh hall hb ?_ ?_ ?_ <;>
      (simp only [toggle]
       split <;> rfl)
  | doPrint t =>
    simp only [step] at hstep
    unfold print at hstep
    by_cases hl : c.line_ending
    · rw [if_pos hl] at hstep
      injection hstep with h
      subst h
      exact console_wf_of_transfer c _ hh hall hb rfl rfl rfl
    · rw [if_neg hl] at hstep
      cases hlast : c.buffer.getLast? with
      | none =>
        rw [hlast] at hstep
        exact Option.noConfusion hstep
      | some last =>
        rw [hlast] at hstep
        injection hstep with h
        subst h
        exact console_wf_of_transfer c _ hh hall hb rfl rfl rfl
  | doPrintln t =>
    simp only [step] at hstep
    injection hstep with h
    subst h
    exact console_wf_of_transfer c _ hh hall hb rfl rfl rfl
  | doPrintLines t =>
    simp only [step] at hstep
    injection hstep with h
    subst h
    unfold print_lines
    obtain ⟨h1, h2, h3⟩ := foldl_println_fields (split_lines t) c
    exact console_wf_of_transfer c _ hh hall hb h1 h2 h3
  | doWrap =>
    simp only [step] at hstep
    injection hstep with h
    subst h
    exact console_wf_of_transfer c _ hh hall hb rfl rfl rfl
  | doClear =>
    simp only [step] at hstep
    injection hstep with h
    subst h
    exact console_wf_of_transfer c _ hh hall hb rfl rfl rfl

/-- Witness for `step_preserves_console_wf`: typing the single character `m`
(byte 109, timestamp 100) into the visible console `wAB`. -/
theorem step_preserves_console_wf_witness :
    console_wf wABm = true ∧
    is_char_boundary wABm.input_buffer wABm.cursor_position = true ∧
    wABm.cursor_position ≤ wABm.input_buffer.length :=
  step_preserves_console_wf (Op.text [109] 100) wAB wABm (by decide) (by decide)
    (by decide)

/-- Witness for `delete_forward_equiv_right_backspace` at `wAB`. -/
theorem delete_forward_equiv_witness :
    wAB.cursor_position < wAB.input_buffer.length ∧
    key_delete wAB = key_backspace (key_right wAB) :=
  ⟨by decide, delete_forward_equiv_right_backspace wAB (by decide)⟩
